import Mathlib

/-!
Shallow embedding of `src/ourJoin.c`, a four-file CSV sort-merge join:
record parsing (`read_csv_file`), column-indexed sorting
(`sort_by_column` / `compare_by_column`), the ordered merge-join
(`join_on_columns`), and the fixed pipeline in `main`.
-/

namespace OurJoin

/-- `MAX_CAPACITY` (src/ourJoin.c line 5). -/
def MAX_CAPACITY : Nat := 16000000

/-- `MAX_LINE_LEN` (src/ourJoin.c line 6): the `fgets` buffer size. -/
def MAX_LINE_LEN : Nat := 128

/-- `MAX_FIELDS` (src/ourJoin.c line 7). -/
def MAX_FIELDS : Nat := 8

/-- `EXIT_FAILURE`, the status used by every fatal path. -/
def EXIT_FAILURE : Nat := 1

/-- `record_t` (src/ourJoin.c lines 16-20): the raw line plus the fields
split out of it; `nfields` is represented by `fields.length`. -/
structure record_t where
  line : String
  fields : List String
deriving DecidableEq

/-- Split a character list at every `','`, keeping empty chunks: the raw
cut points underlying the `strtok_r(_, ",", _)` loops. -/
def splitComma : List Char → List (List Char)
  | [] => [[]]
  | c :: cs =>
    if c = ',' then [] :: splitComma cs
    else
      match splitComma cs with
      | [] => [[c]]
      | t :: ts => (c :: t) :: ts

/-- The field list produced by the `strtok_r` loops (src/ourJoin.c lines
57-63 and 192-197): `strtok_r` returns only the non-empty tokens (runs of
delimiters act as one separator, leading/trailing delimiters are ignored),
and the loop stops storing tokens once `MAX_FIELDS` are captured. -/
def parseFields (s : String) : List String :=
  (((splitComma s.data).filter fun cs => cs ≠ []).map fun cs => String.mk cs).take MAX_FIELDS

/-- `strchr(buffer, '\n')` plus the `*nl = '\0'` truncation (src/ourJoin.c
lines 46-47): cut the buffer at its first newline. -/
def stripNewline (s : String) : String :=
  String.mk (s.data.takeWhile fun c => c ≠ '\n')

/-- The body of the read loop (src/ourJoin.c lines 44-65): one `fgets`
buffer becomes one record, unconditionally; both `line` and the fields are
taken from the newline-stripped buffer. -/
def mkRecord (buf : String) : record_t :=
  { line := stripNewline buf, fields := parseFields (stripNewline buf) }

/-- `fgets(buffer, MAX_LINE_LEN, fp)`: consume at most `n` characters
(`n = MAX_LINE_LEN - 1`), stopping right after a newline; returns the
chunk read and the rest of the stream. -/
def fgetsTake : Nat → List Char → List Char × List Char
  | 0, cs => ([], cs)
  | _ + 1, [] => ([], [])
  | n + 1, c :: cs =>
    if c = '\n' then ([c], cs)
    else
      let p := fgetsTake n cs
      (c :: p.1, p.2)

/-- The `while (fgets(...))` loop of `read_csv_file` (src/ourJoin.c lines
44-66).  `fuel` bounds the iteration count; every `fgets` on a non-empty
stream consumes at least one character, so `fuel = cs.length` always
suffices and the `0` case is never reached from `read_csv_file`. -/
def read_csv_file_aux : Nat → List Char → List record_t
  | 0, _ => []
  | _ + 1, [] => []
  | fuel + 1, c :: cs =>
    let p := fgetsTake (MAX_LINE_LEN - 1) (c :: cs)
    mkRecord (String.mk p.1) :: read_csv_file_aux fuel p.2

/-- `read_csv_file` (src/ourJoin.c lines 31-71) on the contents of the
named file. -/
def read_csv_file (content : String) : List record_t :=
  read_csv_file_aux content.data.length content.data

/-- The column access shared by `compare_by_column` (lines 94-95) and
`join_on_columns` (lines 152-153, 163, 166, 213, 217): the value of a
record at 1-based column `col`, the empty string when the record has fewer
than `col` fields.  Every call site passes `col ≥ 1`. -/
def keyAt (col : Nat) (r : record_t) : String :=
  if col ≤ r.fields.length then r.fields.getD (col - 1) "" else ""

/-- `compare_by_column` (src/ourJoin.c lines 88-98): the sign of `strcmp`
on the two column values, as an `Ordering` (byte-lexicographic; `<` on
`String` is lexicographic on the character data). -/
def compare_by_column (col : Nat) (a b : record_t) : Ordering :=
  if keyAt col a < keyAt col b then .lt
  else if keyAt col a = keyAt col b then .eq
  else .gt

/-- `sort_by_column` (src/ourJoin.c lines 103-127): `qsort` under
`compare_by_column`.  `qsort` promises exactly some permutation of the
input that is sorted under the comparator (it is not stable, and its
order on equal keys is unspecified); we model it by merge sort under the
comparator's "not greater" relation. -/
def sort_by_column (col : Nat) (records : List record_t) : List record_t :=
  records.mergeSort fun a b => decide (keyAt col a ≤ keyAt col b)

/-- The two field-copying loops of `join_on_columns` (src/ourJoin.c lines
175-179 and 182-186): every field except the one at 1-based position
`col`, in order (`if ((lf + 1) == col) continue;` — positional removal). -/
def fieldsExcept (col : Nat) (fs : List String) : List String :=
  (fs.enum.filter fun p => decide (p.1 + 1 ≠ col)).map fun p => p.2

/-- The output line assembled in `buf` (src/ourJoin.c lines 168-186),
before truncation: the join key, then each surviving left field, then each
surviving right field, each preceded by a comma. -/
def join_buf (leftCol rightCol : Nat) (lkey : String) (x y : record_t) : String :=
  (fieldsExcept rightCol y.fields).foldl (fun b f => b ++ "," ++ f)
    ((fieldsExcept leftCol x.fields).foldl (fun b f => b ++ "," ++ f) lkey)

/-- `buf` as actually produced: `buf` is a `4 * MAX_LINE_LEN = 512` byte
array; `snprintf(buf, sizeof(buf), "%s", lkey)` keeps at most 511
characters and each `strncat(buf, s, sizeof(buf) - strlen(buf) - 1)`
appends at most `511 - strlen(buf)` characters, so the final contents are
exactly the first 511 characters of the untruncated concatenation. -/
def joinLine (leftCol rightCol : Nat) (lkey : String) (x y : record_t) : String :=
  String.mk ((join_buf leftCol rightCol lkey x y).data.take (4 * MAX_LINE_LEN - 1))

/-- One output record (src/ourJoin.c lines 188-197): the joined line,
re-split by the same bounded `strtok_r` loop as the parser. -/
def mkJoinedRecord (leftCol rightCol : Nat) (lkey : String) (x y : record_t) : record_t :=
  { line := joinLine leftCol rightCol lkey x y
    fields := parseFields (joinLine leftCol rightCol lkey x y) }

/-- The merge loop of `join_on_columns` (src/ourJoin.c lines 150-225),
with the output-capacity abort modelled separately (`join_checked_loop`).
On equal keys it emits, for each left record of the maximal equal-key run,
one record per right record of the corresponding run (lines 162-209), then
advances both cursors past the runs (lines 212-219); otherwise it advances
the cursor holding the smaller key.  Each iteration of the outer `while`
removes at least one record from one side, so
`fuel = left.length + right.length` bounds the iteration count and the `0`
case is never reached from `join_on_columns`. -/
def join_loop (leftCol rightCol : Nat) :
    Nat → List record_t → List record_t → List record_t
  | 0, _, _ => []
  | _ + 1, [], _ => []
  | _ + 1, _ :: _, [] => []
  | fuel + 1, l0 :: ls, r0 :: rs =>
    let lkey := keyAt leftCol l0
    let rkey := keyAt rightCol r0
    if lkey = rkey then
      (((l0 :: ls).takeWhile fun x => decide (keyAt leftCol x = lkey)).flatMap
          fun x => ((r0 :: rs).takeWhile fun y => decide (keyAt rightCol y = rkey)).map
            fun y => mkJoinedRecord leftCol rightCol lkey x y) ++
        join_loop leftCol rightCol fuel
          ((l0 :: ls).dropWhile fun x => decide (keyAt leftCol x = lkey))
          ((r0 :: rs).dropWhile fun y => decide (keyAt rightCol y = rkey))
    else if lkey < rkey then
      join_loop leftCol rightCol fuel ls (r0 :: rs)
    else
      join_loop leftCol rightCol fuel (l0 :: ls) rs

/-- The records produced by `join_on_columns` (src/ourJoin.c lines
140-229), ignoring the capacity abort. -/
def join_on_columns (leftCol rightCol : Nat) (left right : List record_t) :
    List record_t :=
  join_loop leftCol rightCol (left.length + right.length) left right

/-- The `cnt++; if (cnt >= MAX_CAPACITY) { ...; exit(EXIT_FAILURE); }`
bookkeeping (src/ourJoin.c lines 198-204), applied once per record of the
batch emitted for one key group: the count is incremented per record and
the process dies as soon as it reaches `MAX_CAPACITY`. -/
def emit_batch : List record_t → Nat → Except String Nat
  | [], cnt => .ok cnt
  | _ :: rest, cnt =>
    if MAX_CAPACITY ≤ cnt + 1 then .error "Exceeded maximum capacity in join!"
    else emit_batch rest (cnt + 1)

/-- The merge loop again, now with the per-record capacity check of
src/ourJoin.c lines 200-204 threaded through (`cnt` is the running output
count; an `.error` is the fatal `exit(EXIT_FAILURE)`). -/
def join_checked_loop (leftCol rightCol : Nat) :
    Nat → Nat → List record_t → List record_t → Except String (List record_t × Nat)
  | 0, cnt, _, _ => .ok ([], cnt)
  | _ + 1, cnt, [], _ => .ok ([], cnt)
  | _ + 1, cnt, _ :: _, [] => .ok ([], cnt)
  | fuel + 1, cnt, l0 :: ls, r0 :: rs =>
    let lkey := keyAt leftCol l0
    let rkey := keyAt rightCol r0
    if lkey = rkey then
      match emit_batch (((l0 :: ls).takeWhile fun x => decide (keyAt leftCol x = lkey)).flatMap
          fun x => ((r0 :: rs).takeWhile fun y => decide (keyAt rightCol y = rkey)).map
            fun y => mkJoinedRecord leftCol rightCol lkey x y) cnt with
      | .error e => .error e
      | .ok cnt1 =>
        match join_checked_loop leftCol rightCol fuel cnt1
            ((l0 :: ls).dropWhile fun x => decide (keyAt leftCol x = lkey))
            ((r0 :: rs).dropWhile fun y => decide (keyAt rightCol y = rkey)) with
        | .error e => .error e
        | .ok p =>
          .ok ((((l0 :: ls).takeWhile fun x => decide (keyAt leftCol x = lkey)).flatMap
            fun x => ((r0 :: rs).takeWhile fun y => decide (keyAt rightCol y = rkey)).map
              fun y => mkJoinedRecord leftCol rightCol lkey x y) ++ p.1, p.2)
    else if lkey < rkey then
      join_checked_loop leftCol rightCol fuel cnt ls (r0 :: rs)
    else
      join_checked_loop leftCol rightCol fuel cnt (l0 :: ls) rs

/-- `join_on_columns` with its capacity abort (the function as written,
src/ourJoin.c lines 140-229): the output store, or the fatal error. -/
def join_on_columns_checked (leftCol rightCol : Nat) (left right : List record_t) :
    Except String (List record_t) :=
  (join_checked_loop leftCol rightCol (left.length + right.length) 0 left right).map
    fun p => p.1

/-- The observable outcome of one run of `main`. -/
structure main_result where
  exitCode : Nat
  usageShown : Bool
  openedFiles : List String
  output : List record_t
deriving DecidableEq

/-- `main` (src/ourJoin.c lines 247-315) over an abstract file system
mapping paths to contents (`none` = `fopen` fails): the argument-count
guard, then the fixed pipeline — read and sort file1 and file2 on column
1, join (1,1); read and sort file3, join (1,1); re-sort on column 4; read
and sort file4, join (4,1); print.  Files are opened in pipeline order and
every fatal path exits with `EXIT_FAILURE` and no output. -/
def run_main (argv : List String) (fs : String → Option String) : main_result :=
  if argv.length ≠ 5 then
    ⟨EXIT_FAILURE, true, [], []⟩
  else
    let a1 := argv.getD 1 ""
    let a2 := argv.getD 2 ""
    let a3 := argv.getD 3 ""
    let a4 := argv.getD 4 ""
    match fs a1 with
    | none => ⟨EXIT_FAILURE, false, [a1], []⟩
    | some c1 =>
      let f1 := sort_by_column 1 (read_csv_file c1)
      match fs a2 with
      | none => ⟨EXIT_FAILURE, false, [a1, a2], []⟩
      | some c2 =>
        let f2 := sort_by_column 1 (read_csv_file c2)
        match join_on_columns_checked 1 1 f1 f2 with
        | .error _ => ⟨EXIT_FAILURE, false, [a1, a2], []⟩
        | .ok j12 =>
          match fs a3 with
          | none => ⟨EXIT_FAILURE, false, [a1, a2, a3], []⟩
          | some c3 =>
            let f3 := sort_by_column 1 (read_csv_file c3)
            match join_on_columns_checked 1 1 j12 f3 with
            | .error _ => ⟨EXIT_FAILURE, false, [a1, a2, a3], []⟩
            | .ok j123 =>
              match fs a4 with
              | none => ⟨EXIT_FAILURE, false, [a1, a2, a3, a4], []⟩
              | some c4 =>
                let f4 := sort_by_column 1 (read_csv_file c4)
                match join_on_columns_checked 4 1 (sort_by_column 4 j123) f4 with
                | .error _ => ⟨EXIT_FAILURE, false, [a1, a2, a3, a4], []⟩
                | .ok final => ⟨0, false, [a1, a2, a3, a4], final⟩

/-- Statement helper: a file whose lines are `ls`, each newline-terminated. -/
def unlines (ls : List String) : String :=
  ls.foldr (fun l acc => l ++ "\n" ++ acc) ""

/-- Statement helper: the tokens `ts` joined by single commas. -/
def commaJoin : List String → String
  | [] => ""
  | t :: ts => ts.foldl (fun b f => b ++ "," ++ f) t

/-- Number of records of `rs` whose column-`col` value is `v`. -/
def keyCount (col : Nat) (v : String) (rs : List record_t) : Nat :=
  rs.countP fun r => decide (keyAt col r = v)

/-- `∑` over every key present on both sides of (left multiplicity) ×
(right multiplicity). -/
def sharedKeySum (leftCol rightCol : Nat) (ls rs : List record_t) : Nat :=
  ∑ v ∈ (ls.map (keyAt leftCol)).toFinset ∩ (rs.map (keyAt rightCol)).toFinset,
    keyCount leftCol v ls * keyCount rightCol v rs

/-- The largest output count that does not trigger the capacity abort: the
check `cnt >= MAX_CAPACITY` runs after `cnt++`, so producing the
`MAX_CAPACITY`-th record is already fatal. -/
def OUTPUT_CEILING : Nat := MAX_CAPACITY - 1

/-! ## Theorems -/

lemma compare_by_column_ne_gt_iff (col : Nat) (a b : record_t) :
    compare_by_column col a b ≠ Ordering.gt ↔ keyAt col a ≤ keyAt col b := by
  unfold compare_by_column
  rcases lt_trichotomy (keyAt col a) (keyAt col b) with h | h | h
  · simp [h, le_of_lt h]
  · simp [h]
  · simp [h.not_lt, h.ne', h.not_le]

/-- C2: `sort_by_column` leaves every adjacent pair non-decreasing under
`compare_by_column`, and returns a permutation of its input. -/
theorem sort_by_column_sorts (col : Nat) (records : List record_t) :
    List.Chain' (fun a b => compare_by_column col a b ≠ Ordering.gt)
        (sort_by_column col records) ∧
      (sort_by_column col records).Perm records := by
  constructor
  · have h : (sort_by_column col records).Pairwise
        (fun a b => decide (keyAt col a ≤ keyAt col b) = true) := by
      unfold sort_by_column
      apply List.sorted_mergeSort
      · intro a b c hab hbc
        simp only [decide_eq_true_eq] at *
        exact le_trans hab hbc
      · intro a b
        simpa using le_total (keyAt col a) (keyAt col b)
    exact (h.imp fun hab => (compare_by_column_ne_gt_iff ..).mpr (by simpa using hab)).chain'
  · exact List.mergeSort_perm records _

/-- C9: invoked with an argument count other than five (program name plus
four paths), `main` reports usage, exits nonzero, opens no file and prints
nothing. -/
theorem run_main_usage_error (argv : List String) (fs : String → Option String)
    (h : argv.length ≠ 5) :
    (run_main argv fs).usageShown = true ∧ (run_main argv fs).exitCode ≠ 0 ∧
      (run_main argv fs).openedFiles = [] ∧ (run_main argv fs).output = [] := by
  unfold run_main
  rw [if_pos h]
  exact ⟨rfl, by decide, rfl, rfl⟩

theorem run_main_usage_error_witness :
    (["ourJoin"] : List String).length ≠ 5 ∧
      (run_main ["ourJoin"] fun _ => none).usageShown = true :=
  ⟨by decide, (run_main_usage_error ["ourJoin"] (fun _ => none) (by decide)).1⟩

/-! ### Parser lemmas -/

lemma fgetsTake_line (b : List Char) :
    ∀ (a : List Char) (n : Nat), a.length < n → '\n' ∉ a →
      fgetsTake n (a ++ '\n' :: b) = (a ++ ['\n'], b) := by
  intro a
  induction a with
  | nil =>
    intro n hn _
    cases n with
    | zero => omega
    | succ n => simp [fgetsTake]
  | cons c a ih =>
    intro n hn hnl
    cases n with
    | zero => omega
    | succ n =>
      have hc : c ≠ '\n' := fun e => hnl (by simp [e])
      simp only [List.cons_append, fgetsTake, if_neg hc, List.append_eq]
      rw [ih n (by simp at hn; omega) fun e => hnl (List.mem_cons_of_mem _ e)]

lemma read_csv_file_aux_ne_nil (fuel : Nat) (cs : List Char) (h : cs ≠ []) :
    read_csv_file_aux (fuel + 1) cs =
      mkRecord (String.mk (fgetsTake (MAX_LINE_LEN - 1) cs).1) ::
        read_csv_file_aux fuel (fgetsTake (MAX_LINE_LEN - 1) cs).2 := by
  cases cs with
  | nil => exact absurd rfl h
  | cons c cs => rfl

lemma mkRecord_append_newline (l : String) (h : '\n' ∉ l.data) :
    mkRecord (String.mk (l.data ++ ['\n'])) = mkRecord l := by
  have hs : stripNewline (String.mk (l.data ++ ['\n'])) = stripNewline l := by
    unfold stripNewline
    have hall : ∀ c ∈ l.data, (fun c => decide (c ≠ '\n')) c = true := by
      intro c hc
      simp only [decide_eq_true_eq]
      exact fun e => h (e ▸ hc)
    rw [show (String.mk (l.data ++ ['\n'])).data = l.data ++ ['\n'] from rfl]
    rw [List.takeWhile_append_of_pos hall]
    rw [List.takeWhile_eq_self_iff.mpr hall]
    simp
  unfold mkRecord
  rw [hs]

lemma read_csv_file_aux_unlines :
    ∀ (ls : List String) (fuel : Nat), (unlines ls).data.length ≤ fuel →
      (∀ l ∈ ls, l.data.length < MAX_LINE_LEN - 1 ∧ '\n' ∉ l.data) →
      read_csv_file_aux fuel (unlines ls).data = ls.map mkRecord := by
  intro ls
  induction ls with
  | nil =>
    intro fuel _ _
    show read_csv_file_aux fuel [] = []
    cases fuel <;> rfl
  | cons l ls ih =>
    intro fuel hfuel hwf
    have hdata : (unlines (l :: ls)).data = l.data ++ '\n' :: (unlines ls).data := by
      show (l ++ "\n" ++ unlines ls).data = _
      simp
    rw [hdata] at hfuel ⊢
    obtain ⟨hlen, hnl⟩ := hwf l (List.mem_cons_self l ls)
    cases fuel with
    | zero => simp at hfuel
    | succ fuel =>
      rw [read_csv_file_aux_ne_nil fuel _ (by simp)]
      rw [fgetsTake_line _ l.data (MAX_LINE_LEN - 1) hlen hnl]
      rw [mkRecord_append_newline l hnl]
      rw [ih fuel (by simp at hfuel ⊢; omega) fun x hx => hwf x (List.mem_cons_of_mem _ hx)]
      rfl

/-- C4 counterexample: the first line of `"\nx\n"` is empty, yet
`read_csv_file` produces a record for it — an empty record (empty line,
no fields) — rather than skipping it. -/
theorem read_csv_file_keeps_empty_lines :
    read_csv_file "\nx\n" = [⟨"", []⟩, ⟨"x", ["x"]⟩] ∧
      (⟨"", []⟩ : record_t) ∈ read_csv_file "\nx\n" ∧
      (⟨"", []⟩ : record_t).fields = [] :=
  ⟨by decide, by decide, rfl⟩

/-- C4 amended: `read_csv_file` does not skip empty lines — every line,
empty ones included, becomes exactly one record, and an empty line's
record has an empty line and no fields. -/
theorem read_csv_file_record_per_line (ls : List String)
    (h : ∀ l ∈ ls, l.data.length < MAX_LINE_LEN - 1 ∧ '\n' ∉ l.data) :
    read_csv_file (unlines ls) = ls.map mkRecord ∧ (mkRecord "").fields = [] ∧
      (mkRecord "").line = "" :=
  ⟨read_csv_file_aux_unlines ls _ le_rfl h, by decide, by decide⟩

theorem read_csv_file_record_per_line_witness :
    (∀ l ∈ (["", "a,b"] : List String), l.data.length < MAX_LINE_LEN - 1 ∧ '\n' ∉ l.data) ∧
      read_csv_file (unlines ["", "a,b"]) = (["", "a,b"] : List String).map mkRecord :=
  ⟨by decide, (read_csv_file_record_per_line ["", "a,b"] (by decide)).1⟩

/-! ### Field-splitting lemmas -/

lemma splitComma_no_comma (a : List Char) (h : ',' ∉ a) : splitComma a = [a] := by
  induction a with
  | nil => rfl
  | cons c a ih =>
    have hc : c ≠ ',' := fun e => h (by simp [e])
    simp only [splitComma, if_neg hc]
    rw [ih fun e => h (List.mem_cons_of_mem _ e)]

lemma splitComma_append_comma (a b : List Char) (h : ',' ∉ a) :
    splitComma (a ++ ',' :: b) = a :: splitComma b := by
  induction a with
  | nil => simp [splitComma]
  | cons c a ih =>
    have hc : c ≠ ',' := fun e => h (by simp [e])
    simp only [List.cons_append, splitComma, if_neg hc, List.append_eq]
    rw [ih fun e => h (List.mem_cons_of_mem _ e)]

lemma splitComma_chunks :
    ∀ (fs : List String) (a : List Char), ',' ∉ a →
      (∀ f ∈ fs, ',' ∉ f.data) →
      splitComma (a ++ fs.flatMap fun f => ',' :: f.data) = a :: fs.map String.data := by
  intro fs
  induction fs with
  | nil =>
    intro a ha _
    simp [splitComma_no_comma a ha]
  | cons f fs ih =>
    intro a ha hfs
    rw [List.flatMap_cons, show (',' :: f.data ++ fs.flatMap fun g => ',' :: g.data) =
      ',' :: (f.data ++ fs.flatMap fun g => ',' :: g.data) from rfl]
    rw [splitComma_append_comma a _ ha]
    rw [ih f.data (hfs f (List.mem_cons_self f fs)) fun g hg => hfs g (List.mem_cons_of_mem _ hg)]
    rfl

lemma string_mk_ne_empty_iff (cs : List Char) : String.mk cs ≠ "" ↔ cs ≠ [] := by
  constructor
  · intro h e
    exact h (by rw [e])
  · intro h e
    exact h (congrArg String.data e)

lemma foldl_commaSep_data (ts : List String) (b : String) :
    (ts.foldl (fun b f => b ++ "," ++ f) b).data =
      b.data ++ ts.flatMap fun f => ',' :: f.data := by
  induction ts generalizing b with
  | nil => simp
  | cons t ts ih =>
    rw [List.foldl_cons, ih]
    simp

lemma parseFields_chunks (a : String) (fs : List String)
    (ha : a ≠ "" ∧ ',' ∉ a.data) (hfs : ∀ f ∈ fs, f ≠ "" ∧ ',' ∉ f.data) :
    parseFields (String.mk (a.data ++ fs.flatMap fun f => ',' :: f.data)) =
      (a :: fs).take MAX_FIELDS := by
  unfold parseFields
  rw [show (String.mk (a.data ++ fs.flatMap fun f => ',' :: f.data)).data =
    a.data ++ fs.flatMap fun f => ',' :: f.data from rfl]
  rw [splitComma_chunks fs a.data ha.2 fun f hf => (hfs f hf).2]
  rw [List.filter_eq_self.mpr ?_]
  · rw [show ((a.data :: fs.map String.data).map fun cs => String.mk cs) = a :: fs from ?_]
    simp only [List.map_cons, List.map_map]
    congr 1
    exact List.map_id'' (fun f => rfl) fs
  · intro cs hcs
    rcases List.mem_cons.mp hcs with e | e
    · subst e
      simpa using fun e => ha.1 (String.ext e)
    · obtain ⟨f, hf, e⟩ := List.mem_map.mp e
      subst e
      simpa using fun e => (hfs f hf).1 (String.ext e)

/-- C5 counterexample: with the CRLF-terminated input `"a,b\r\n"`, the
parsed record's last field is `"b\r"` — a field ending in a carriage
return, which the claim says cannot happen. -/
theorem read_csv_file_keeps_carriage_return :
    read_csv_file "a,b\r\n" = [⟨"a,b\r", ["a", "b\r"]⟩] ∧
      ("b\r" : String).data.getLast? = some '\r' :=
  ⟨by decide, by decide⟩

/-- C5 amended: only the newline is stripped; the carriage return of a
CRLF line ending is kept, so it stays in the record's line and (for a
comma-free line) its last field ends with the carriage return. -/
theorem mkRecord_strips_only_newline (l : String) (h : '\n' ∉ l.data) :
    (mkRecord (l ++ "\r\n")).line = l ++ "\r" ∧
      (',' ∉ l.data → (mkRecord (l ++ "\r\n")).fields = [l ++ "\r"]) := by
  have hall : ∀ c ∈ l.data ++ ['\r'], (fun c => decide (c ≠ '\n')) c = true := by
    intro c hc
    simp only [decide_eq_true_eq]
    rcases List.mem_append.mp hc with hc | hc
    · exact fun e => h (e ▸ hc)
    · simp only [List.mem_singleton] at hc
      subst hc
      decide
  have hline : stripNewline (l ++ "\r\n") = String.mk (l.data ++ ['\r']) := by
    unfold stripNewline
    rw [show (l ++ "\r\n").data = (l.data ++ ['\r']) ++ ['\n'] by simp]
    rw [List.takeWhile_append_of_pos hall]
    simp
  have hmk : String.mk (l.data ++ ['\r']) = l ++ "\r" := String.ext (by simp)
  constructor
  · show stripNewline (l ++ "\r\n") = _
    rw [hline, hmk]
  · intro hcomma
    show parseFields (stripNewline (l ++ "\r\n")) = _
    rw [hline]
    unfold parseFields
    rw [show (String.mk (l.data ++ ['\r'])).data = l.data ++ ['\r'] from rfl]
    rw [splitComma_no_comma _ ?_]
    · simp [hmk]
      decide
    · intro e
      rcases List.mem_append.mp e with e | e
      · exact hcomma e
      · simp at e

theorem mkRecord_strips_only_newline_witness :
    '\n' ∉ ("ab" : String).data ∧ (mkRecord ("ab" ++ "\r\n")).line = "ab" ++ "\r" :=
  ⟨by decide, (mkRecord_strips_only_newline "ab" (by decide)).1⟩

/-- C6 counterexample: the nine-field line `"a,b,c,d,e,f,g,h,i"` parses
into exactly eight fields whose last is `"h"` — the remainder `",i"` is
dropped, not folded into the 8th field (which the claim says would be
`"h,i"`). -/
theorem parse_drops_fields_beyond_max :
    (read_csv_file "a,b,c,d,e,f,g,h,i\n").map record_t.fields =
        [["a", "b", "c", "d", "e", "f", "g", "h"]] ∧
      (["a", "b", "c", "d", "e", "f", "g", "h"] : List String) ≠
        ["a", "b", "c", "d", "e", "f", "g", "h,i"] :=
  ⟨by decide, by decide⟩

/-- C6 amended: a line of non-empty comma-free tokens splits into at most
`MAX_FIELDS` fields; the first `MAX_FIELDS` tokens are kept exactly and
every later token is silently dropped (the `MAX_FIELDS`-th field is the
`MAX_FIELDS`-th token, not the remainder of the line). -/
theorem parseFields_take_max (ts : List String)
    (h : ∀ t ∈ ts, t ≠ "" ∧ ',' ∉ t.data) :
    parseFields (commaJoin ts) = ts.take MAX_FIELDS := by
  cases ts with
  | nil => decide
  | cons t ts =>
    have hd : (commaJoin (t :: ts)).data = t.data ++ ts.flatMap fun f => ',' :: f.data := by
      show (ts.foldl _ t).data = _
      rw [foldl_commaSep_data]
    have he : commaJoin (t :: ts) = String.mk (t.data ++ ts.flatMap fun f => ',' :: f.data) :=
      String.ext hd
    rw [he]
    exact parseFields_chunks t ts (h t (List.mem_cons_self t ts))
      fun f hf => h f (List.mem_cons_of_mem _ hf)

theorem parseFields_take_max_witness :
    (∀ t ∈ (["a", "b", "c", "d", "e", "f", "g", "h", "i"] : List String),
        t ≠ "" ∧ ',' ∉ t.data) ∧
      parseFields (commaJoin ["a", "b", "c", "d", "e", "f", "g", "h", "i"]) =
        (["a", "b", "c", "d", "e", "f", "g", "h", "i"] : List String).take MAX_FIELDS :=
  ⟨by decide, parseFields_take_max ["a", "b", "c", "d", "e", "f", "g", "h", "i"] (by decide)⟩

/-! ### Join membership and field invariants -/

lemma join_loop_nil_left (leftCol rightCol fuel : Nat) (rs : List record_t) :
    join_loop leftCol rightCol fuel [] rs = [] := by
  cases fuel <;> rfl

lemma join_loop_nil_right (leftCol rightCol fuel : Nat) (ls : List record_t) :
    join_loop leftCol rightCol fuel ls [] = [] := by
  cases fuel <;> cases ls <;> rfl

lemma mem_join_loop (leftCol rightCol : Nat) :
    ∀ (fuel : Nat) (ls rs : List record_t) (rec : record_t),
      rec ∈ join_loop leftCol rightCol fuel ls rs →
      ∃ x ∈ ls, ∃ y ∈ rs, keyAt leftCol x = keyAt rightCol y ∧
        rec = mkJoinedRecord leftCol rightCol (keyAt leftCol x) x y := by
  intro fuel
  induction fuel with
  | zero =>
    intro ls rs rec h
    simp [join_loop] at h
  | succ fuel ih =>
    intro ls rs rec h
    match ls, rs with
    | [], _ => simp [join_loop_nil_left] at h
    | _ :: _, [] => simp [join_loop_nil_right] at h
    | l0 :: ls, r0 :: rs =>
      rw [join_loop] at h
      by_cases hk : keyAt leftCol l0 = keyAt rightCol r0
      · rw [if_pos hk] at h
        rcases List.mem_append.mp h with hb | hrec
        · rcases List.mem_flatMap.mp hb with ⟨x, hx, hy⟩
          rcases List.mem_map.mp hy with ⟨y, hy, e⟩
          have hkx : keyAt leftCol x = keyAt leftCol l0 := by
            simpa using List.mem_takeWhile_imp hx
          have hky : keyAt rightCol y = keyAt rightCol r0 := by
            simpa using List.mem_takeWhile_imp hy
          refine ⟨x, (List.takeWhile_sublist _).mem hx,
            y, (List.takeWhile_sublist _).mem hy, ?_, ?_⟩
          · rw [hkx, hky, hk]
          · rw [← e, hkx]
        · obtain ⟨x, hx, y, hy, h1, h2⟩ := ih _ _ _ hrec
          exact ⟨x, (List.dropWhile_sublist _).mem hx, y, (List.dropWhile_sublist _).mem hy,
            h1, h2⟩
      · rw [if_neg hk] at h
        by_cases hlt : keyAt leftCol l0 < keyAt rightCol r0
        · rw [if_pos hlt] at h
          obtain ⟨x, hx, rest⟩ := ih _ _ _ h
          exact ⟨x, List.mem_cons_of_mem _ hx, rest⟩
        · rw [if_neg hlt] at h
          obtain ⟨x, hx, y, hy, rest⟩ := ih _ _ _ h
          exact ⟨x, hx, y, List.mem_cons_of_mem _ hy, rest⟩

lemma parseFields_ne_empty (s : String) : ∀ f ∈ parseFields s, f ≠ "" := by
  intro f hf
  unfold parseFields at hf
  have hf' := List.mem_of_mem_take hf
  rcases List.mem_map.mp hf' with ⟨cs, hcs, e⟩
  subst e
  have h1 : cs ≠ [] := by simpa using List.of_mem_filter hcs
  exact (string_mk_ne_empty_iff cs).mpr h1

lemma mem_read_csv_file_aux :
    ∀ (fuel : Nat) (cs : List Char) (r : record_t), r ∈ read_csv_file_aux fuel cs →
      ∃ b, r = mkRecord b := by
  intro fuel
  induction fuel with
  | zero =>
    intro cs r h
    simp [read_csv_file_aux] at h
  | succ fuel ih =>
    intro cs r h
    match cs with
    | [] => simp [read_csv_file_aux] at h
    | c :: cs =>
      rw [read_csv_file_aux] at h
      rcases List.mem_cons.mp h with e | e
      · exact ⟨_, e⟩
      · exact ih _ _ e

/-- C10: every field stored in a record — whether parsed by
`read_csv_file` or re-parsed by `join_on_columns` from its output line —
is a non-empty string: the `strtok_r`-style splitting collapses
consecutive and leading delimiters, so an empty column value can never be
observed through the fields array. -/
theorem all_fields_nonempty :
    (∀ (content : String), ∀ r ∈ read_csv_file content, ∀ f ∈ r.fields, f ≠ "") ∧
      (∀ (leftCol rightCol : Nat) (ls rs : List record_t),
        ∀ rec ∈ join_on_columns leftCol rightCol ls rs, ∀ f ∈ rec.fields, f ≠ "") := by
  constructor
  · intro content r hr
    obtain ⟨b, rfl⟩ := mem_read_csv_file_aux _ _ r hr
    exact parseFields_ne_empty _
  · intro leftCol rightCol ls rs rec hrec
    obtain ⟨x, hx, y, hy, _, rfl⟩ := mem_join_loop leftCol rightCol _ ls rs rec hrec
    exact parseFields_ne_empty _

theorem all_fields_nonempty_witness :
    (⟨"a,b", ["a", "b"]⟩ : record_t) ∈ read_csv_file "a,b\n" ∧ ("a" : String) ≠ "" :=
  ⟨by decide, all_fields_nonempty.1 "a,b\n" ⟨"a,b", ["a", "b"]⟩ (by decide) "a" (by decide)⟩

/-! ### Missing-column semantics (C8) -/

lemma keyAt_missing (col : Nat) (r : record_t) (h : r.fields.length < col) :
    keyAt col r = "" := by
  unfold keyAt
  rw [if_neg (by omega)]

lemma length_cartesian {α β γ : Type} (g : α → β → γ) (bs : List β) :
    ∀ as : List α, (as.flatMap fun a => bs.map (g a)).length = as.length * bs.length := by
  intro as
  induction as with
  | nil => simp
  | cons a as ih =>
    rw [List.flatMap_cons, List.length_append, List.length_map, ih, List.length_cons,
      Nat.succ_mul, Nat.add_comm]

/-- C8: a record whose join column exceeds its field count contributes the
empty-string key, and when every record on both sides lacks its join
column, the two sides form one "key = empty string" equivalence class and
fully cross-join: the output has `|left| * |right|` records. -/
theorem missing_column_empty_key_cross_join :
    (∀ (col : Nat) (r : record_t), r.fields.length < col → keyAt col r = "") ∧
      (∀ (leftCol rightCol : Nat) (ls rs : List record_t),
        (∀ x ∈ ls, x.fields.length < leftCol) →
        (∀ y ∈ rs, y.fields.length < rightCol) →
        (join_on_columns leftCol rightCol ls rs).length = ls.length * rs.length) := by
  refine ⟨keyAt_missing, ?_⟩
  intro leftCol rightCol ls rs hl hr
  match ls, rs with
  | [], rs =>
    have e0 : join_on_columns leftCol rightCol [] rs =
        join_loop leftCol rightCol (List.length [] + rs.length) [] rs := rfl
    rw [e0, join_loop_nil_left]
    simp
  | l0 :: ls, [] =>
    have e0 : join_on_columns leftCol rightCol (l0 :: ls) [] =
        join_loop leftCol rightCol ((l0 :: ls).length + List.length []) (l0 :: ls) [] := rfl
    rw [e0, join_loop_nil_right]
    simp
  | l0 :: ls, r0 :: rs =>
    have hk0 : keyAt leftCol l0 = "" := keyAt_missing _ _ (hl l0 (List.mem_cons_self _ _))
    have hkr : keyAt rightCol r0 = "" := keyAt_missing _ _ (hr r0 (List.mem_cons_self _ _))
    have hlall : ∀ x ∈ l0 :: ls, decide (keyAt leftCol x = keyAt leftCol l0) = true := by
      intro x hx
      rw [keyAt_missing _ _ (hl x hx), hk0]
      exact decide_eq_true rfl
    have hrall : ∀ y ∈ r0 :: rs, decide (keyAt rightCol y = keyAt rightCol r0) = true := by
      intro y hy
      rw [keyAt_missing _ _ (hr y hy), hkr]
      exact decide_eq_true rfl
    have e0 : join_on_columns leftCol rightCol (l0 :: ls) (r0 :: rs) =
        join_loop leftCol rightCol (ls.length + 1 + rs.length + 1) (l0 :: ls) (r0 :: rs) := rfl
    rw [e0, join_loop]
    rw [if_pos (by rw [hk0, hkr])]
    rw [List.takeWhile_eq_self_iff.mpr hlall, List.takeWhile_eq_self_iff.mpr hrall,
      List.dropWhile_eq_nil_iff.mpr hlall, List.dropWhile_eq_nil_iff.mpr hrall]
    rw [join_loop_nil_left, List.append_nil]
    exact length_cartesian _ _ _

theorem missing_column_empty_key_cross_join_witness :
    (∀ x ∈ ([⟨"x", ["x"]⟩] : List record_t), x.fields.length < 2) ∧
      (join_on_columns 2 2 [⟨"x", ["x"]⟩] [⟨"y", ["y"]⟩, ⟨"z", ["z"]⟩]).length = 1 * 2 :=
  ⟨by decide, missing_column_empty_key_cross_join.2 2 2 [⟨"x", ["x"]⟩]
    [⟨"y", ["y"]⟩, ⟨"z", ["z"]⟩] (by decide) (by decide)⟩

/-! ### Output-capacity ceiling (C7) -/

lemma emit_batch_spec :
    ∀ (batch : List record_t) (cnt : Nat), cnt < MAX_CAPACITY →
      emit_batch batch cnt =
        if MAX_CAPACITY ≤ cnt + batch.length
        then Except.error "Exceeded maximum capacity in join!"
        else Except.ok (cnt + batch.length) := by
  intro batch
  induction batch with
  | nil =>
    intro cnt h
    rw [emit_batch, if_neg (by simp; omega)]
    simp
  | cons r batch ih =>
    intro cnt h
    rw [emit_batch]
    by_cases h1 : MAX_CAPACITY ≤ cnt + 1
    · rw [if_pos h1, if_pos (by simp; omega)]
    · rw [if_neg h1, ih (cnt + 1) (by omega)]
      rw [show cnt + 1 + batch.length = cnt + (r :: batch).length by simp; omega]

lemma join_checked_loop_spec (leftCol rightCol : Nat) :
    ∀ (fuel : Nat) (ls rs : List record_t) (cnt : Nat), cnt < MAX_CAPACITY →
      join_checked_loop leftCol rightCol fuel cnt ls rs =
        if MAX_CAPACITY ≤ cnt + (join_loop leftCol rightCol fuel ls rs).length
        then Except.error "Exceeded maximum capacity in join!"
        else Except.ok (join_loop leftCol rightCol fuel ls rs,
          cnt + (join_loop leftCol rightCol fuel ls rs).length) := by
  intro fuel
  induction fuel with
  | zero =>
    intro ls rs cnt h
    rw [join_checked_loop, join_loop, if_neg (by simp; omega)]
    simp
  | succ fuel ih =>
    intro ls rs cnt h
    match ls, rs with
    | [], rs =>
      rw [join_checked_loop, join_loop_nil_left, if_neg (by simp; omega)]
      simp
    | l0 :: ls, [] =>
      rw [join_checked_loop, join_loop_nil_right, if_neg (by simp; omega)]
      simp
    | l0 :: ls, r0 :: rs =>
      rw [join_checked_loop, join_loop]
      by_cases hk : keyAt leftCol l0 = keyAt rightCol r0
      · rw [if_pos hk, if_pos hk]
        generalize (((l0 :: ls).takeWhile fun x =>
          decide (keyAt leftCol x = keyAt leftCol l0)).flatMap
            fun x => ((r0 :: rs).takeWhile fun y =>
              decide (keyAt rightCol y = keyAt rightCol r0)).map
              fun y => mkJoinedRecord leftCol rightCol (keyAt leftCol l0) x y) = B
        generalize ((l0 :: ls).dropWhile fun x =>
          decide (keyAt leftCol x = keyAt leftCol l0)) = L
        generalize ((r0 :: rs).dropWhile fun y =>
          decide (keyAt rightCol y = keyAt rightCol r0)) = R
        by_cases h2 : MAX_CAPACITY ≤ cnt + B.length
        · simp only [emit_batch_spec B cnt h, if_pos h2]
          rw [if_pos (by simp only [List.length_append]; omega)]
        · simp only [emit_batch_spec B cnt h, if_neg h2]
          rw [ih L R (cnt + B.length) (by omega)]
          by_cases h3 : MAX_CAPACITY ≤ cnt + B.length +
            (join_loop leftCol rightCol fuel L R).length
          · simp only [if_pos h3]
            rw [if_pos (by simp only [List.length_append]; omega)]
          · simp only [if_neg h3]
            rw [if_neg (by simp only [List.length_append]; omega)]
            simp only [List.length_append]
            rw [Nat.add_assoc]
      · rw [if_neg hk, if_neg hk]
        by_cases hlt : keyAt leftCol l0 < keyAt rightCol r0
        · rw [if_pos hlt, if_pos hlt]
          exact ih _ _ _ h
        · rw [if_neg hlt, if_neg hlt]
          exact ih _ _ _ h

/-- C7: `join_on_columns` enforces the fixed ceiling
`OUTPUT_CEILING = MAX_CAPACITY - 1` on output records: a join whose
output does not exceed the ceiling completes and returns exactly its
records, and one whose output would exceed it aborts with the fatal
capacity error (`exit(EXIT_FAILURE)`). -/
theorem join_output_ceiling (leftCol rightCol : Nat) (ls rs : List record_t) :
    ((join_on_columns leftCol rightCol ls rs).length ≤ OUTPUT_CEILING →
        join_on_columns_checked leftCol rightCol ls rs =
          Except.ok (join_on_columns leftCol rightCol ls rs)) ∧
      (OUTPUT_CEILING < (join_on_columns leftCol rightCol ls rs).length →
        join_on_columns_checked leftCol rightCol ls rs =
          Except.error "Exceeded maximum capacity in join!") := by
  have h0 : (0 : Nat) < MAX_CAPACITY := by decide
  have hs := join_checked_loop_spec leftCol rightCol (ls.length + rs.length) ls rs 0 h0
  constructor
  · intro hle
    unfold join_on_columns at hle
    unfold join_on_columns_checked
    rw [hs, if_neg (by unfold OUTPUT_CEILING at hle; omega)]
    rfl
  · intro hgt
    unfold join_on_columns at hgt
    unfold join_on_columns_checked
    rw [hs, if_pos (by unfold OUTPUT_CEILING at hgt; omega)]
    rfl

theorem join_output_ceiling_witness :
    (join_on_columns 1 1 [⟨"1,a", ["1", "a"]⟩] [⟨"1,x", ["1", "x"]⟩]).length ≤ OUTPUT_CEILING ∧
      join_on_columns_checked 1 1 [⟨"1,a", ["1", "a"]⟩] [⟨"1,x", ["1", "x"]⟩] =
        Except.ok (join_on_columns 1 1 [⟨"1,a", ["1", "a"]⟩] [⟨"1,x", ["1", "x"]⟩]) :=
  ⟨by decide, (join_output_ceiling 1 1 _ _).1 (by decide)⟩

/-! ### Output field sequence (C3) -/

lemma join_buf_data (leftCol rightCol : Nat) (lkey : String) (x y : record_t) :
    (join_buf leftCol rightCol lkey x y).data =
      lkey.data ++ (fieldsExcept leftCol x.fields ++ fieldsExcept rightCol y.fields).flatMap
        fun f => ',' :: f.data := by
  unfold join_buf
  rw [foldl_commaSep_data, foldl_commaSep_data, List.flatMap_append, List.append_assoc]

lemma fieldsExcept_subset (col : Nat) (fs : List String) :
    ∀ f ∈ fieldsExcept col fs, f ∈ fs := by
  intro f hf
  unfold fieldsExcept at hf
  rcases List.mem_map.mp hf with ⟨p, hp, e⟩
  subst e
  exact List.getElem?_mem (List.mem_enum_iff_getElem?.mp (List.mem_of_mem_filter hp))

lemma keyAt_mem (col : Nat) (r : record_t) (h1 : 1 ≤ col) (h2 : col ≤ r.fields.length) :
    keyAt col r ∈ r.fields := by
  unfold keyAt
  rw [if_pos h2]
  have hlt : col - 1 < r.fields.length := by omega
  rw [List.getD_eq_getElem?_getD, List.getElem?_eq_getElem hlt, Option.getD_some]
  exact List.getElem_mem hlt

lemma mkJoinedRecord_fields (leftCol rightCol : Nat) (lkey : String) (x y : record_t)
    (hkey : lkey ≠ "" ∧ ',' ∉ lkey.data)
    (hf : ∀ f ∈ fieldsExcept leftCol x.fields ++ fieldsExcept rightCol y.fields,
      f ≠ "" ∧ ',' ∉ f.data)
    (hlen : (join_buf leftCol rightCol lkey x y).data.length ≤ 4 * MAX_LINE_LEN - 1)
    (hcount : (fieldsExcept leftCol x.fields).length +
      (fieldsExcept rightCol y.fields).length + 1 ≤ MAX_FIELDS) :
    (mkJoinedRecord leftCol rightCol lkey x y).fields =
      lkey :: (fieldsExcept leftCol x.fields ++ fieldsExcept rightCol y.fields) := by
  have hjl : joinLine leftCol rightCol lkey x y = join_buf leftCol rightCol lkey x y := by
    unfold joinLine
    rw [List.take_of_length_le hlen]
  show parseFields (joinLine leftCol rightCol lkey x y) = _
  rw [hjl]
  have he : join_buf leftCol rightCol lkey x y =
      String.mk (lkey.data ++ (fieldsExcept leftCol x.fields ++
        fieldsExcept rightCol y.fields).flatMap fun f => ',' :: f.data) :=
    String.ext (join_buf_data leftCol rightCol lkey x y)
  rw [he, parseFields_chunks lkey _ hkey hf]
  exact List.take_of_length_le (by simp only [List.length_cons, List.length_append]; omega)

/-- C3 counterexample: joining two one-field records on column 2 of each
side (both keys missing, hence the empty-string key) yields an output
record whose field sequence is `["x", "y"]`: the leading empty join key is
collapsed by the `strtok_r` re-parse, so the field sequence is not
key :: left-rest ++ right-rest. -/
theorem join_output_drops_empty_key :
    (join_on_columns 2 2 [⟨"x", ["x"]⟩] [⟨"y", ["y"]⟩]).map record_t.fields = [["x", "y"]] ∧
      (["x", "y"] : List String) ≠
        keyAt 2 ⟨"x", ["x"]⟩ :: (fieldsExcept 2 ["x"] ++ fieldsExcept 2 ["y"]) :=
  ⟨by decide, by decide⟩

/-- C3 amended: for every record emitted by `join_on_columns` there is a
matched pair (equal keys) of a left and a right record whose combination
it is, and — provided the left join column is a real 1-based column that
every left record has, all fields are non-empty and comma-free, and the
combined output fits the `MAX_FIELDS` and 511-byte buffer bounds — its
field sequence is exactly: join key, then the left record's fields with
position `leftCol` removed, then the right record's fields with position
`rightCol` removed, each side in original order. -/
theorem join_output_field_sequence (leftCol rightCol : Nat) (ls rs : List record_t)
    (hcol : 1 ≤ leftCol)
    (hl : ∀ x ∈ ls, (∀ f ∈ x.fields, f ≠ "" ∧ ',' ∉ f.data) ∧ leftCol ≤ x.fields.length)
    (hr : ∀ y ∈ rs, ∀ f ∈ y.fields, f ≠ "" ∧ ',' ∉ f.data)
    (hlen : ∀ x ∈ ls, ∀ y ∈ rs,
      (join_buf leftCol rightCol (keyAt leftCol x) x y).data.length ≤ 4 * MAX_LINE_LEN - 1)
    (hcount : ∀ x ∈ ls, ∀ y ∈ rs, (fieldsExcept leftCol x.fields).length +
      (fieldsExcept rightCol y.fields).length + 1 ≤ MAX_FIELDS) :
    ∀ rec ∈ join_on_columns leftCol rightCol ls rs,
      ∃ x ∈ ls, ∃ y ∈ rs, keyAt leftCol x = keyAt rightCol y ∧
        rec.fields = keyAt leftCol x ::
          (fieldsExcept leftCol x.fields ++ fieldsExcept rightCol y.fields) := by
  intro rec hrec
  obtain ⟨x, hx, y, hy, hk, rfl⟩ := mem_join_loop leftCol rightCol _ ls rs rec hrec
  refine ⟨x, hx, y, hy, hk, ?_⟩
  have hkmem : keyAt leftCol x ∈ x.fields := keyAt_mem _ _ hcol (hl x hx).2
  apply mkJoinedRecord_fields
  · exact (hl x hx).1 _ hkmem
  · intro f hf
    rcases List.mem_append.mp hf with h | h
    · exact (hl x hx).1 f (fieldsExcept_subset _ _ f h)
    · exact hr y hy f (fieldsExcept_subset _ _ f h)
  · exact hlen x hx y hy
  · exact hcount x hx y hy

theorem join_output_field_sequence_witness :
    (∀ x ∈ ([⟨"1,a", ["1", "a"]⟩] : List record_t),
        (∀ f ∈ x.fields, f ≠ "" ∧ ',' ∉ f.data) ∧ 1 ≤ x.fields.length) ∧
      ∃ x ∈ ([⟨"1,a", ["1", "a"]⟩] : List record_t),
        ∃ y ∈ ([⟨"1,x", ["1", "x"]⟩] : List record_t),
          keyAt 1 x = keyAt 1 y ∧
            (⟨"1,a,x", ["1", "a", "x"]⟩ : record_t).fields = keyAt 1 x ::
              (fieldsExcept 1 x.fields ++ fieldsExcept 1 y.fields) :=
  ⟨by decide, join_output_field_sequence 1 1 [⟨"1,a", ["1", "a"]⟩] [⟨"1,x", ["1", "x"]⟩]
    le_rfl (by decide) (by decide) (by decide) (by decide)
    ⟨"1,a,x", ["1", "a", "x"]⟩ (by decide)⟩

/-! ### Merge-join output count (C1) -/

lemma sorted_cons_le (col : Nat) (l0 : record_t) (ls : List record_t)
    (h : List.Pairwise (fun a b => keyAt col a ≤ keyAt col b) (l0 :: ls)) :
    ∀ x ∈ l0 :: ls, keyAt col l0 ≤ keyAt col x := by
  intro x hx
  rcases List.mem_cons.mp hx with e | e
  · rw [e]
  · exact List.rel_of_pairwise_cons h e

lemma dropWhile_key_ne (col : Nat) (k : String) :
    ∀ (ls : List record_t),
      List.Pairwise (fun a b => keyAt col a ≤ keyAt col b) ls →
      (∀ x ∈ ls, k ≤ keyAt col x) →
      ∀ x ∈ ls.dropWhile fun r => decide (keyAt col r = k), keyAt col x ≠ k := by
  intro ls
  induction ls with
  | nil =>
    intro _ _ x hx
    simp at hx
  | cons a t ih =>
    intro hp hb x hx
    by_cases ha : keyAt col a = k
    · rw [List.dropWhile_cons_of_pos (by simpa using ha)] at hx
      exact ih hp.of_cons (fun y hy => hb y (List.mem_cons_of_mem _ hy)) x hx
    · rw [List.dropWhile_cons_of_neg (by simpa using ha)] at hx
      rcases List.mem_cons.mp hx with e | e
      · rw [e]
        exact ha
      · have h1 : k ≤ keyAt col a := hb a (List.mem_cons_self a t)
        have h2 : keyAt col a ≤ keyAt col x := List.rel_of_pairwise_cons hp e
        intro e2
        exact ha (le_antisymm (e2 ▸ h2) h1)

lemma keyCount_eq_takeWhile (col : Nat) (k : String) (ls : List record_t)
    (hp : List.Pairwise (fun a b => keyAt col a ≤ keyAt col b) ls)
    (hb : ∀ x ∈ ls, k ≤ keyAt col x) :
    keyCount col k ls = (ls.takeWhile fun r => decide (keyAt col r = k)).length := by
  unfold keyCount
  conv_lhs => rw [← List.takeWhile_append_dropWhile (fun r => decide (keyAt col r = k)) ls]
  rw [List.countP_append]
  have h1 : (ls.takeWhile fun r => decide (keyAt col r = k)).countP
      (fun r => decide (keyAt col r = k)) =
      (ls.takeWhile fun r => decide (keyAt col r = k)).length :=
    List.countP_eq_length.mpr (by
      intro a ha
      simpa using List.mem_takeWhile_imp ha)
  have h2 : (ls.dropWhile fun r => decide (keyAt col r = k)).countP
      (fun r => decide (keyAt col r = k)) = 0 :=
    List.countP_eq_zero.mpr fun a ha => by
      simpa using dropWhile_key_ne col k ls hp hb a ha
  omega

lemma keyCount_dropWhile (col : Nat) (k v : String) (hne : v ≠ k) (ls : List record_t) :
    keyCount col v (ls.dropWhile fun r => decide (keyAt col r = k)) = keyCount col v ls := by
  unfold keyCount
  conv_rhs => rw [← List.takeWhile_append_dropWhile (fun r => decide (keyAt col r = k)) ls]
  rw [List.countP_append]
  have h0 : (ls.takeWhile fun r => decide (keyAt col r = k)).countP
      (fun r => decide (keyAt col r = v)) = 0 :=
    List.countP_eq_zero.mpr (by
      intro a ha
      have hk : keyAt col a = k := by simpa using List.mem_takeWhile_imp ha
      simp only [decide_eq_true_eq, hk]
      exact fun e => hne e.symm)
  omega

lemma keys_toFinset_dropWhile (col : Nat) (k : String) (ls : List record_t)
    (hp : List.Pairwise (fun a b => keyAt col a ≤ keyAt col b) ls)
    (hb : ∀ x ∈ ls, k ≤ keyAt col x) :
    ((ls.dropWhile fun r => decide (keyAt col r = k)).map (keyAt col)).toFinset =
      ((ls.map (keyAt col)).toFinset).erase k := by
  ext v
  simp only [List.mem_toFinset, Finset.mem_erase, List.mem_map]
  constructor
  · rintro ⟨x, hx, rfl⟩
    exact ⟨dropWhile_key_ne col k ls hp hb x hx, x, (List.dropWhile_sublist _).mem hx, rfl⟩
  · rintro ⟨hv, x, hx, rfl⟩
    rw [← List.takeWhile_append_dropWhile (fun r => decide (keyAt col r = k)) ls] at hx
    rcases List.mem_append.mp hx with h | h
    · have : keyAt col x = k := by simpa using List.mem_takeWhile_imp h
      exact absurd this hv
    · exact ⟨x, h, rfl⟩

lemma sharedKeySum_nil_left (leftCol rightCol : Nat) (rs : List record_t) :
    sharedKeySum leftCol rightCol [] rs = 0 := by
  unfold sharedKeySum
  simp

lemma sharedKeySum_nil_right (leftCol rightCol : Nat) (ls : List record_t) :
    sharedKeySum leftCol rightCol ls [] = 0 := by
  unfold sharedKeySum
  simp

lemma sharedKeySum_cons_left (leftCol rightCol : Nat) (l0 : record_t) (ls rs : List record_t)
    (h : keyAt leftCol l0 ∉ rs.map (keyAt rightCol)) :
    sharedKeySum leftCol rightCol (l0 :: ls) rs = sharedKeySum leftCol rightCol ls rs := by
  unfold sharedKeySum
  have hni : keyAt leftCol l0 ∉ (rs.map (keyAt rightCol)).toFinset := by simpa using h
  rw [List.map_cons, List.toFinset_cons, Finset.insert_inter_of_not_mem hni]
  apply Finset.sum_congr rfl
  intro v hv
  have hvB : v ∈ (rs.map (keyAt rightCol)).toFinset := (Finset.mem_inter.mp hv).2
  have hvne : keyAt leftCol l0 ≠ v := fun e => hni (e ▸ hvB)
  unfold keyCount
  rw [List.countP_cons, if_neg (by simpa using hvne), Nat.add_zero]

lemma sharedKeySum_cons_right (leftCol rightCol : Nat) (r0 : record_t) (ls rs : List record_t)
    (h : keyAt rightCol r0 ∉ ls.map (keyAt leftCol)) :
    sharedKeySum leftCol rightCol ls (r0 :: rs) = sharedKeySum leftCol rightCol ls rs := by
  unfold sharedKeySum
  have hni : keyAt rightCol r0 ∉ (ls.map (keyAt leftCol)).toFinset := by simpa using h
  rw [List.map_cons, List.toFinset_cons, Finset.inter_comm,
    Finset.insert_inter_of_not_mem hni, Finset.inter_comm]
  apply Finset.sum_congr rfl
  intro v hv
  have hvA : v ∈ (ls.map (keyAt leftCol)).toFinset := (Finset.mem_inter.mp hv).1
  have hvne : keyAt rightCol r0 ≠ v := fun e => hni (e ▸ hvA)
  unfold keyCount
  rw [List.countP_cons, if_neg (by simpa using hvne), Nat.add_zero]

lemma sharedKeySum_eq_block (leftCol rightCol : Nat) (l0 r0 : record_t)
    (ls rs : List record_t)
    (hpl : List.Pairwise (fun a b => keyAt leftCol a ≤ keyAt leftCol b) (l0 :: ls))
    (hpr : List.Pairwise (fun a b => keyAt rightCol a ≤ keyAt rightCol b) (r0 :: rs))
    (hk : keyAt leftCol l0 = keyAt rightCol r0) :
    sharedKeySum leftCol rightCol (l0 :: ls) (r0 :: rs) =
      keyCount leftCol (keyAt leftCol l0) (l0 :: ls) *
        keyCount rightCol (keyAt rightCol r0) (r0 :: rs) +
      sharedKeySum leftCol rightCol
        ((l0 :: ls).dropWhile fun r => decide (keyAt leftCol r = keyAt leftCol l0))
        ((r0 :: rs).dropWhile fun r => decide (keyAt rightCol r = keyAt rightCol r0)) := by
  have hbl : ∀ x ∈ l0 :: ls, keyAt leftCol l0 ≤ keyAt leftCol x := sorted_cons_le _ _ _ hpl
  have hbr : ∀ y ∈ r0 :: rs, keyAt rightCol r0 ≤ keyAt rightCol y := sorted_cons_le _ _ _ hpr
  have hmem : keyAt leftCol l0 ∈
      ((l0 :: ls).map (keyAt leftCol)).toFinset ∩
        ((r0 :: rs).map (keyAt rightCol)).toFinset := by
    rw [Finset.mem_inter]
    constructor
    · simp
    · rw [List.mem_toFinset, hk]
      exact List.mem_map.mpr ⟨r0, List.mem_cons_self r0 rs, rfl⟩
  unfold sharedKeySum
  rw [← Finset.add_sum_erase _ _ hmem]
  congr 1
  · rw [hk]
  · rw [keys_toFinset_dropWhile leftCol _ _ hpl hbl,
      keys_toFinset_dropWhile rightCol _ _ hpr hbr, ← hk]
    have hsets :
        (((l0 :: ls).map (keyAt leftCol)).toFinset ∩
            ((r0 :: rs).map (keyAt rightCol)).toFinset).erase (keyAt leftCol l0) =
          (((l0 :: ls).map (keyAt leftCol)).toFinset.erase (keyAt leftCol l0)) ∩
            (((r0 :: rs).map (keyAt rightCol)).toFinset.erase (keyAt leftCol l0)) := by
      ext v
      simp only [Finset.mem_erase, Finset.mem_inter]
      tauto
    rw [hsets]
    apply Finset.sum_congr rfl
    intro v hv
    have hvne : v ≠ keyAt leftCol l0 := (Finset.mem_erase.mp (Finset.mem_inter.mp hv).1).1
    rw [keyCount_dropWhile leftCol _ v hvne, keyCount_dropWhile rightCol _ v hvne]

lemma join_loop_length (leftCol rightCol : Nat) :
    ∀ (fuel : Nat) (ls rs : List record_t),
      ls.length + rs.length ≤ fuel →
      List.Pairwise (fun a b => keyAt leftCol a ≤ keyAt leftCol b) ls →
      List.Pairwise (fun a b => keyAt rightCol a ≤ keyAt rightCol b) rs →
      (join_loop leftCol rightCol fuel ls rs).length =
        sharedKeySum leftCol rightCol ls rs := by
  intro fuel
  induction fuel with
  | zero =>
    intro ls rs hlen _ _
    obtain rfl : ls = [] := List.length_eq_zero.mp (by omega)
    rw [join_loop_nil_left, sharedKeySum_nil_left]
    rfl
  | succ fuel ih =>
    intro ls rs hlen hpl hpr
    match ls, rs with
    | [], rs =>
      rw [join_loop_nil_left, sharedKeySum_nil_left]
      rfl
    | l0 :: ls, [] =>
      rw [join_loop_nil_right, sharedKeySum_nil_right]
      rfl
    | l0 :: ls, r0 :: rs =>
      rw [join_loop]
      by_cases hk : keyAt leftCol l0 = keyAt rightCol r0
      · rw [if_pos hk]
        rw [List.length_append, length_cartesian]
        have hdl : ((l0 :: ls).dropWhile fun r =>
            decide (keyAt leftCol r = keyAt leftCol l0)).length ≤ ls.length := by
          rw [List.dropWhile_cons_of_pos (by simp)]
          exact ((List.dropWhile_sublist _).length_le)
        have hdr : ((r0 :: rs).dropWhile fun r =>
            decide (keyAt rightCol r = keyAt rightCol r0)).length ≤ rs.length := by
          rw [List.dropWhile_cons_of_pos (by simp)]
          exact ((List.dropWhile_sublist _).length_le)
        rw [ih _ _ (by simp only [List.length_cons] at hlen; omega)
          (hpl.sublist (List.dropWhile_sublist _)) (hpr.sublist (List.dropWhile_sublist _))]
        rw [sharedKeySum_eq_block leftCol rightCol l0 r0 ls rs hpl hpr hk]
        rw [keyCount_eq_takeWhile leftCol _ _ hpl (sorted_cons_le _ _ _ hpl),
          keyCount_eq_takeWhile rightCol _ _ hpr (sorted_cons_le _ _ _ hpr)]
      · by_cases hlt : keyAt leftCol l0 < keyAt rightCol r0
        · rw [if_neg hk, if_pos hlt]
          have hnotin : keyAt leftCol l0 ∉ (r0 :: rs).map (keyAt rightCol) := by
            intro hmem
            rcases List.mem_map.mp hmem with ⟨y, hy, e⟩
            have h1 : keyAt rightCol r0 ≤ keyAt rightCol y := sorted_cons_le _ _ _ hpr y hy
            rw [e] at h1
            exact absurd hlt (not_lt.mpr h1)
          rw [ih ls (r0 :: rs) (by simp only [List.length_cons] at hlen ⊢; omega)
            hpl.of_cons hpr]
          exact (sharedKeySum_cons_left leftCol rightCol l0 ls (r0 :: rs) hnotin).symm
        · rw [if_neg hk, if_neg hlt]
          have hgt : keyAt rightCol r0 < keyAt leftCol l0 :=
            lt_of_le_of_ne (not_lt.mp hlt) fun e => hk e.symm
          have hnotin : keyAt rightCol r0 ∉ (l0 :: ls).map (keyAt leftCol) := by
            intro hmem
            rcases List.mem_map.mp hmem with ⟨x, hx, e⟩
            have h1 : keyAt leftCol l0 ≤ keyAt leftCol x := sorted_cons_le _ _ _ hpl x hx
            rw [e] at h1
            exact absurd hgt (not_lt.mpr h1)
          rw [ih (l0 :: ls) rs (by simp only [List.length_cons] at hlen ⊢; omega)
            hpl hpr.of_cons]
          exact (sharedKeySum_cons_right leftCol rightCol r0 (l0 :: ls) rs hnotin).symm

/-- C1: for inputs each sorted ascending on its join column under the
shared comparator, the number of records produced by `join_on_columns` is
the sum, over every key present on both sides, of (number of left records
with that key) × (number of right records with that key); in particular,
disjoint key sets produce zero output records. -/
theorem join_count_sum_of_products (leftCol rightCol : Nat) (ls rs : List record_t)
    (hl : List.Chain' (fun a b => compare_by_column leftCol a b ≠ Ordering.gt) ls)
    (hr : List.Chain' (fun a b => compare_by_column rightCol a b ≠ Ordering.gt) rs) :
    (join_on_columns leftCol rightCol ls rs).length =
        sharedKeySum leftCol rightCol ls rs ∧
      ((∀ v ∈ ls.map (keyAt leftCol), v ∉ rs.map (keyAt rightCol)) →
        (join_on_columns leftCol rightCol ls rs).length = 0) := by
  haveI : IsTrans record_t (fun a b => keyAt leftCol a ≤ keyAt leftCol b) :=
    ⟨fun a b c => le_trans⟩
  haveI : IsTrans record_t (fun a b => keyAt rightCol a ≤ keyAt rightCol b) :=
    ⟨fun a b c => le_trans⟩
  have hpl : List.Pairwise (fun a b => keyAt leftCol a ≤ keyAt leftCol b) ls :=
    List.chain'_iff_pairwise.mp (hl.imp fun a b h => (compare_by_column_ne_gt_iff ..).mp h)
  have hpr : List.Pairwise (fun a b => keyAt rightCol a ≤ keyAt rightCol b) rs :=
    List.chain'_iff_pairwise.mp (hr.imp fun a b h => (compare_by_column_ne_gt_iff ..).mp h)
  have hmain : (join_on_columns leftCol rightCol ls rs).length =
      sharedKeySum leftCol rightCol ls rs :=
    join_loop_length leftCol rightCol _ ls rs le_rfl hpl hpr
  refine ⟨hmain, fun hdisj => ?_⟩
  have hempty : (ls.map (keyAt leftCol)).toFinset ∩
      (rs.map (keyAt rightCol)).toFinset = ∅ := by
    ext v
    simp only [Finset.mem_inter, List.mem_toFinset, Finset.not_mem_empty, iff_false, not_and]
    exact hdisj v
  rw [hmain]
  unfold sharedKeySum
  rw [hempty, Finset.sum_empty]

theorem join_count_sum_of_products_witness :
    List.Chain' (fun a b => compare_by_column 1 a b ≠ Ordering.gt)
        [⟨"1,a", ["1", "a"]⟩, ⟨"2,b", ["2", "b"]⟩] ∧
      (join_on_columns 1 1 [⟨"1,a", ["1", "a"]⟩, ⟨"2,b", ["2", "b"]⟩]
          [⟨"1,x", ["1", "x"]⟩, ⟨"1,y", ["1", "y"]⟩, ⟨"3,z", ["3", "z"]⟩]).length =
        sharedKeySum 1 1 [⟨"1,a", ["1", "a"]⟩, ⟨"2,b", ["2", "b"]⟩]
          [⟨"1,x", ["1", "x"]⟩, ⟨"1,y", ["1", "y"]⟩, ⟨"3,z", ["3", "z"]⟩] :=
  by
  have hl : List.Chain' (fun a b => compare_by_column 1 a b ≠ Ordering.gt)
      [⟨"1,a", ["1", "a"]⟩, ⟨"2,b", ["2", "b"]⟩] := by
    rw [List.chain'_pair, compare_by_column_ne_gt_iff]
    exact le_of_lt (String.lt_iff_toList_lt.mpr (by decide))
  have hr : List.Chain' (fun a b => compare_by_column 1 a b ≠ Ordering.gt)
      [⟨"1,x", ["1", "x"]⟩, ⟨"1,y", ["1", "y"]⟩, ⟨"3,z", ["3", "z"]⟩] := by
    rw [List.chain'_cons, List.chain'_pair, compare_by_column_ne_gt_iff,
      compare_by_column_ne_gt_iff]
    exact ⟨le_rfl, le_of_lt (String.lt_iff_toList_lt.mpr (by decide))⟩
  exact ⟨hl, (join_count_sum_of_products 1 1 _ _ hl hr).1⟩

end OurJoin
